import Mathlib

/-!
Verification of the recursive crawl-and-dedupe core of the
`headful-scrapping` repository.

The development shallowly embeds, from the Python sources:
  * `dedupe_links` (src/combined_crawler.py) as an ordered association-list
    update loop over link records;
  * `sanitize_title_for_folder_name` / `sanitize_url_for_folder_name`
    (src/crawler_html.py) as character-level string pipelines, together with
    a simplified `urlparse` for absolute http(s) URLs;
  * the robots.txt cache, its getter, / `can_fetch`
    (src/crawler_html.py) with the network abstracted as a partial map from
    origins to parsed policies;
  * the recursion controller `crawl_url_recursive` (src/crawler_html.py) as
    a fuel-indexed interpreter over an abstract web, emitting a trace of
    fetch and child-spawn events;
  * the queue-driven crawl loop `WebCrawler.process_page` / `crawl`
    (src/web_crawler.py), which maintains the `failed_urls` record.

Python dictionaries are rendered as association lists (first occurrence of a
key is its binding; `OrderedDict`/`dict` assignment updates the first
occurrence in place or appends a fresh key at the end), machine-level
effects (logging, sleeping, file writes) are dropped, and network/browser
I/O is abstracted as explicit function parameters.
-/

namespace Crawl

/-! ### Ordered association lists (Python `dict` / `OrderedDict`) -/

/-- First binding of key `u`, as Python `d[u]` / `u in d` membership. -/
def lookupA {α : Type} : List (String × α) → String → Option α
  | [], _ => none
  | (k, v) :: rest, u => if k = u then some v else lookupA rest u

/-- Python `d[u] = t`: replace the first binding of `u` in place, or append
a fresh binding at the end (insertion order preserved, as in `dict`). -/
def setA {α : Type} : List (String × α) → String → α → List (String × α)
  | [], u, t => [(u, t)]
  | (k, v) :: rest, u, t =>
    if k = u then (k, t) :: rest else (k, v) :: setA rest u t

/-- The keys of an association list, in order. -/
def keysA {α : Type} (d : List (String × α)) : List String :=
  d.map Prod.fst

@[simp] theorem keysA_nil {α : Type} : keysA ([] : List (String × α)) = [] :=
  rfl

@[simp] theorem keysA_cons {α : Type} (k : String) (v : α)
    (rest : List (String × α)) : keysA ((k, v) :: rest) = k :: keysA rest :=
  rfl

theorem lookupA_eq_none {α : Type} (d : List (String × α)) (u : String) :
    lookupA d u = none ↔ u ∉ keysA d := by
  induction d with
  | nil => simp [lookupA]
  | cons p rest ih =>
    obtain ⟨k, v⟩ := p
    by_cases h : k = u
    · subst h
      simp [lookupA]
    · simp [lookupA, h, ih, Ne.symm h]

theorem lookupA_setA {α : Type} (d : List (String × α)) (u : String) (t : α)
    (v : String) : lookupA (setA d u t) v =
      if v = u then some t else lookupA d v := by
  induction d with
  | nil =>
    by_cases h : v = u
    · simp [setA, lookupA, h]
    · simp [setA, lookupA, h, Ne.symm h]
  | cons p rest ih =>
    obtain ⟨k, w⟩ := p
    by_cases hk : k = u
    · subst hk
      by_cases hv : v = k
      · simp [setA, lookupA, hv]
      · simp [setA, lookupA, hv, Ne.symm hv]
    · by_cases hv : k = v
      · subst hv
        simp [setA, lookupA, hk]
      · simp [setA, lookupA, hk, hv, ih]

theorem keysA_setA_mem {α : Type} (d : List (String × α)) (u : String) (t : α)
    (h : u ∈ keysA d) : keysA (setA d u t) = keysA d := by
  induction d with
  | nil => simp at h
  | cons p rest ih =>
    obtain ⟨k, v⟩ := p
    by_cases hk : k = u
    · simp [setA, hk]
    · simp [Ne.symm hk] at h
      simp [setA, hk, ih h]

theorem keysA_setA_new {α : Type} (d : List (String × α)) (u : String) (t : α)
    (h : u ∉ keysA d) : keysA (setA d u t) = keysA d ++ [u] := by
  induction d with
  | nil => simp [setA]
  | cons p rest ih =>
    obtain ⟨k, v⟩ := p
    simp at h
    push_neg at h
    have hku : ¬ k = u := fun hh => h.1 hh.symm
    simp [setA, hku, ih h.2]

/-! ### Link records and `dedupe_links` (src/combined_crawler.py) -/

/-- One extracted anchor as stored in the `links` JSON array: a `url` field
(`none` models a JSON record without a usable url, i.e. Python `None` /
missing) and a display-text field (missing text is Python `.get("text", "")`,
rendered as `""`). -/
structure LinkRec where
  url : Option String
  text : String
deriving DecidableEq

/-- The body of the `for link in data.get("links", [])` loop of
`dedupe_links`: `seen` is the `OrderedDict`.  A link without a url is
skipped; an unseen url is inserted; a seen url is overwritten exactly when
the new occurrence has non-empty text and the stored text is empty. -/
def dedupeLoop : List LinkRec → List (String × String) → List (String × String)
  | [], seen => seen
  | l :: rest, seen =>
    match l.url with
    | none => dedupeLoop rest seen
    | some u =>
      match lookupA seen u with
      | none => dedupeLoop rest (setA seen u l.text)
      | some t0 =>
        if l.text ≠ "" ∧ t0 = "" then dedupeLoop rest (setA seen u l.text)
        else dedupeLoop rest seen

/-- `dedupe_links` restricted to the link list itself:
`list(seen.values())` rebuilt as link records. -/
def dedupeList (links : List LinkRec) : List LinkRec :=
  (dedupeLoop links []).map (fun p => ⟨some p.1, p.2⟩)

/-- The display texts of the occurrences of url `u` in `L`, in order. -/
def textsOf (L : List LinkRec) (u : String) : List String :=
  L.filterMap (fun l => if l.url = some u then some l.text else none)

/-- The text `dedupe_links` finally stores for url `u`: the first non-empty
text among the occurrences of `u`, or `""` when every occurrence is empty. -/
def fnet (L : List LinkRec) (u : String) : String :=
  ((textsOf L u).find? (fun t => t ≠ "")).getD ""

/-- First-occurrence deduplication of a list of strings, keeping order. -/
def firstOccs : List String → List String
  | [] => []
  | u :: rest => u :: (firstOccs rest).filter (fun v => v ≠ u)

theorem mem_firstOccs (x : String) (xs : List String) :
    x ∈ firstOccs xs ↔ x ∈ xs := by
  induction xs with
  | nil => simp [firstOccs]
  | cons y ys ih =>
    by_cases hxy : x = y <;> simp [firstOccs, hxy, ih]

theorem nodup_firstOccs (xs : List String) : (firstOccs xs).Nodup := by
  induction xs with
  | nil => simp [firstOccs]
  | cons y ys ih =>
    refine List.Nodup.cons ?_ (List.Nodup.filter _ ih)
    intro hmem
    rcases List.of_mem_filter hmem with h
    simp at h

theorem firstOccs_of_nodup (xs : List String) (h : xs.Nodup) :
    firstOccs xs = xs := by
  induction xs with
  | nil => rfl
  | cons y ys ih =>
    rcases List.nodup_cons.mp h with ⟨hy, hys⟩
    rw [firstOccs, ih hys, List.filter_eq_self.mpr]
    intro a ha
    simp
    exact fun heq => hy (heq ▸ ha)

/-- The urls carried by the records of `L`, in order (records without a url
contribute nothing). -/
def urlsOf (L : List LinkRec) : List String :=
  L.filterMap LinkRec.url

theorem urlsOf_cons_none (l : LinkRec) (rest : List LinkRec)
    (h : l.url = none) : urlsOf (l :: rest) = urlsOf rest := by
  simp [urlsOf, List.filterMap_cons, h]

theorem urlsOf_cons_some (l : LinkRec) (rest : List LinkRec) (w : String)
    (h : l.url = some w) : urlsOf (l :: rest) = w :: urlsOf rest := by
  simp [urlsOf, List.filterMap_cons, h]

theorem textsOf_cons_hit (l : LinkRec) (rest : List LinkRec) (u : String)
    (h : l.url = some u) : textsOf (l :: rest) u = l.text :: textsOf rest u := by
  simp [textsOf, List.filterMap_cons, h]

theorem textsOf_cons_miss (l : LinkRec) (rest : List LinkRec) (u : String)
    (h : l.url ≠ some u) : textsOf (l :: rest) u = textsOf rest u := by
  simp [textsOf, List.filterMap_cons, h]

theorem fnet_cons_hit (l : LinkRec) (rest : List LinkRec) (u : String)
    (h : l.url = some u) :
    fnet (l :: rest) u = if l.text ≠ "" then l.text else fnet rest u := by
  by_cases ht : l.text = "" <;>
    simp [fnet, textsOf_cons_hit l rest u h, List.find?, ht]

theorem fnet_cons_miss (l : LinkRec) (rest : List LinkRec) (u : String)
    (h : l.url ≠ some u) : fnet (l :: rest) u = fnet rest u := by
  simp [fnet, textsOf_cons_miss l rest u h]

theorem fnet_nil (u : String) : fnet [] u = "" := rfl

/-- Value-level characterisation of the `dedupe_links` loop: the binding a
url ends with is its stored text when that text was already non-empty, and
otherwise the first non-empty text the remaining input offers for it. -/
theorem lookupA_dedupeLoop (L : List LinkRec) :
    ∀ (seen : List (String × String)) (u : String),
    lookupA (dedupeLoop L seen) u =
      match lookupA seen u with
      | some t0 => some (if t0 ≠ "" then t0 else fnet L u)
      | none => if u ∈ urlsOf L then some (fnet L u) else none := by
  induction L with
  | nil =>
    intro seen u
    cases h : lookupA seen u with
    | none => simp [dedupeLoop, h, urlsOf]
    | some t0 =>
      by_cases ht : t0 = "" <;> simp [dedupeLoop, h, fnet_nil, ht]
  | cons l rest ih =>
    intro seen u
    cases hu : l.url with
    | none =>
      have hne : l.url ≠ some u := by simp [hu]
      simp only [dedupeLoop, hu]
      rw [ih seen u, urlsOf_cons_none l rest hu, fnet_cons_miss l rest u hne]
    | some w =>
      cases hlook : lookupA seen w with
      | none =>
        simp only [dedupeLoop, hu, hlook]
        rw [ih (setA seen w l.text) u]
        rw [lookupA_setA seen w l.text u]
        by_cases huw : u = w
        · subst huw
          simp only [if_pos rfl, hlook, urlsOf_cons_some l rest u hu,
            fnet_cons_hit l rest u hu]
          simp
        · have hne : l.url ≠ some u := by
            rw [hu]
            intro hc
            exact huw (Option.some.inj hc).symm
          simp only [if_neg huw, urlsOf_cons_some l rest w hu,
            fnet_cons_miss l rest u hne, List.mem_cons]
          cases h2 : lookupA seen u with
          | none => simp [huw]
          | some t1 => rfl
      | some t0 =>
        by_cases hrep : l.text ≠ "" ∧ t0 = ""
        · simp only [dedupeLoop, hu, hlook, if_pos hrep]
          rw [ih (setA seen w l.text) u, lookupA_setA seen w l.text u]
          by_cases huw : u = w
          · subst huw
            simp only [if_pos rfl, hlook, fnet_cons_hit l rest u hu,
              if_pos hrep.1, hrep.2]
            simp [hrep.1]
          · have hne : l.url ≠ some u := by
              rw [hu]
              intro hc
              exact huw (Option.some.inj hc).symm
            simp only [if_neg huw, fnet_cons_miss l rest u hne,
              urlsOf_cons_some l rest w hu, List.mem_cons]
            cases h2 : lookupA seen u with
            | none => simp [huw]
            | some t1 => rfl
        · simp only [dedupeLoop, hu, hlook, if_neg hrep]
          rw [ih seen u]
          by_cases huw : u = w
          · subst huw
            simp only [hlook]
            by_cases ht0 : t0 = ""
            · have hlt : l.text = "" := by
                by_contra hc
                exact hrep ⟨hc, ht0⟩
              simp [ht0, fnet_cons_hit l rest u hu, hlt]
            · simp [ht0]
          · have hne : l.url ≠ some u := by
              rw [hu]
              intro hc
              exact huw (Option.some.inj hc).symm
            simp only [fnet_cons_miss l rest u hne,
              urlsOf_cons_some l rest w hu, List.mem_cons]
            cases h2 : lookupA seen u with
            | none => simp [huw]
            | some t1 => rfl

theorem firstOccs_filter (p : String → Bool) (xs : List String) :
    firstOccs (xs.filter p) = (firstOccs xs).filter p := by
  induction xs with
  | nil => rfl
  | cons x xs ih =>
    by_cases hp : p x
    · rw [List.filter_cons_of_pos hp, firstOccs, ih, firstOccs,
        List.filter_cons_of_pos hp, List.filter_comm]
    · have h1 : List.filter (fun v => decide (v ≠ x))
          (List.filter p (firstOccs xs)) = List.filter p (firstOccs xs) := by
        apply List.filter_eq_self.mpr
        intro a ha
        rcases List.mem_filter.mp ha with ⟨_, hpa⟩
        simp only [decide_eq_true_eq]
        intro heq
        rw [heq] at hpa
        simp [hp] at hpa
      rw [List.filter_cons_of_neg (by simpa using hp), ih, firstOccs,
        List.filter_cons_of_neg (by simpa using hp), List.filter_comm, h1]

theorem filter_keys_snoc (ks : List String) (w : String) (urls : List String) :
    urls.filter (fun u => decide (u ∉ ks ++ [w])) =
      (urls.filter (fun u => decide (u ∉ ks))).filter (fun v => v ≠ w) := by
  induction urls with
  | nil => rfl
  | cons x urls ih =>
    by_cases hks : x ∈ ks
    · rw [List.filter_cons_of_neg (by simp [hks]),
        List.filter_cons_of_neg (by simp [hks]), ih]
    · by_cases hxw : x = w
      · rw [List.filter_cons_of_neg (by simp [hxw]),
          List.filter_cons_of_pos (by simp [hks]),
          List.filter_cons_of_neg (by simp [hxw]), ih]
      · rw [List.filter_cons_of_pos (by simp [hks, hxw]),
          List.filter_cons_of_pos (by simp [hks]),
          List.filter_cons_of_pos (by simp [hxw]), ih]

/-- Key-level characterisation of the `dedupe_links` loop: the insertion
order of the `OrderedDict` is the stored keys followed by the unseen urls of
the input, each at its first occurrence. -/
theorem keysA_dedupeLoop (L : List LinkRec) :
    ∀ seen : List (String × String),
    keysA (dedupeLoop L seen) =
      keysA seen ++
        firstOccs ((urlsOf L).filter (fun u => decide (u ∉ keysA seen))) := by
  induction L with
  | nil =>
    intro seen
    simp [dedupeLoop, urlsOf, firstOccs]
  | cons l rest ih =>
    intro seen
    cases hu : l.url with
    | none =>
      simp only [dedupeLoop, hu]
      rw [ih seen, urlsOf_cons_none l rest hu]
    | some w =>
      cases hlook : lookupA seen w with
      | none =>
        have hw : w ∉ keysA seen := (lookupA_eq_none seen w).mp hlook
        simp only [dedupeLoop, hu, hlook]
        rw [ih (setA seen w l.text), keysA_setA_new seen w l.text hw,
          urlsOf_cons_some l rest w hu,
          List.filter_cons_of_pos (by simp [hw]), firstOccs,
          filter_keys_snoc (keysA seen) w (urlsOf rest),
          firstOccs_filter (fun v => decide (v ≠ w))]
        simp
      | some t0 =>
        have hw : w ∈ keysA seen := by
          by_contra hc
          rw [(lookupA_eq_none seen w).mpr hc] at hlook
          exact Option.noConfusion hlook
        have hfilt : (urlsOf (l :: rest)).filter
              (fun u => decide (u ∉ keysA seen)) =
            (urlsOf rest).filter (fun u => decide (u ∉ keysA seen)) := by
          rw [urlsOf_cons_some l rest w hu,
            List.filter_cons_of_neg (by simp [hw])]
        by_cases hrep : l.text ≠ "" ∧ t0 = ""
        · simp only [dedupeLoop, hu, hlook, if_pos hrep]
          rw [ih (setA seen w l.text), keysA_setA_mem seen w l.text hw, hfilt]
        · simp only [dedupeLoop, hu, hlook, if_neg hrep]
          rw [ih seen, hfilt]

theorem keysA_dedupeLoop_nil (L : List LinkRec) :
    keysA (dedupeLoop L []) = firstOccs (urlsOf L) := by
  rw [keysA_dedupeLoop L []]
  simp

/-- Two association lists with the same duplicate-free key order and the
same bindings are equal. -/
theorem assocExt {α : Type} :
    ∀ (s1 s2 : List (String × α)), keysA s1 = keysA s2 → (keysA s1).Nodup →
    (∀ u, lookupA s1 u = lookupA s2 u) → s1 = s2 := by
  intro s1
  induction s1 with
  | nil =>
    intro s2 hk _ _
    cases s2 with
    | nil => rfl
    | cons p r => simp [keysA] at hk
  | cons p r1 ih =>
    intro s2 hk hnd hlook
    obtain ⟨k, v⟩ := p
    cases s2 with
    | nil => simp [keysA] at hk
    | cons q r2 =>
      obtain ⟨k2, v2⟩ := q
      simp only [keysA_cons, List.cons.injEq] at hk
      obtain ⟨hkk, hkr⟩ := hk
      subst hkk
      have hv : v = v2 := by
        have h1 := hlook k
        simp [lookupA] at h1
        exact h1
      subst hv
      rcases List.nodup_cons.mp hnd with ⟨hknr, hnd2⟩
      have htail : r1 = r2 := by
        refine ih r2 hkr hnd2 ?_
        intro u
        by_cases huk : u = k
        · subst huk
          rw [(lookupA_eq_none r1 u).mpr hknr,
            (lookupA_eq_none r2 u).mpr (hkr ▸ hknr)]
        · have h1 := hlook u
          simp only [lookupA, if_neg (fun h : k = u => huk h.symm)] at h1
          exact h1
      rw [htail]

theorem lookupA_mapKeyed {α : Type} (f : String → α) :
    ∀ (us : List String) (v : String),
    lookupA (us.map (fun u => (u, f u))) v =
      if v ∈ us then some (f v) else none := by
  intro us
  induction us with
  | nil => simp [lookupA]
  | cons x us ih =>
    intro v
    by_cases hv : x = v
    · subst hv
      simp [lookupA]
    · simp only [List.map_cons, lookupA, if_neg hv, ih, List.mem_cons]
      have : ¬ v = x := fun h => hv h.symm
      simp [this]

theorem keysA_mapKeyed {α : Type} (f : String → α) (us : List String) :
    keysA (us.map (fun u => (u, f u))) = us := by
  induction us with
  | nil => rfl
  | cons x us ih => simp [keysA] at *; exact ih

/-- Full characterisation of the `dedupe_links` loop started on an empty
`OrderedDict`. -/
theorem dedupeLoop_char (L : List LinkRec) :
    dedupeLoop L [] = (firstOccs (urlsOf L)).map (fun u => (u, fnet L u)) := by
  refine assocExt _ _ ?_ ?_ ?_
  · rw [keysA_dedupeLoop_nil, keysA_mapKeyed]
  · rw [keysA_dedupeLoop_nil]
    exact nodup_firstOccs (urlsOf L)
  · intro u
    rw [lookupA_dedupeLoop L [] u, lookupA_mapKeyed (fun u => fnet L u)]
    simp only [lookupA, mem_firstOccs]

/-- Full characterisation of `dedupe_links` on a link list: one record per
distinct url, in first-occurrence order, whose text is the first non-empty
text among that url's occurrences (or `""`). -/
theorem dedupeList_char (L : List LinkRec) :
    dedupeList L =
      (firstOccs (urlsOf L)).map (fun u => ⟨some u, fnet L u⟩) := by
  rw [dedupeList, dedupeLoop_char, List.map_map]
  rfl

theorem ite_ne_empty_self (s : String) : (if s ≠ "" then s else "") = s := by
  by_cases h : s = "" <;> simp [h]

theorem urlsOf_dedupeList (L : List LinkRec) :
    urlsOf (dedupeList L) = firstOccs (urlsOf L) := by
  rw [dedupeList_char, urlsOf, List.filterMap_map]
  have heq : (LinkRec.url ∘ fun u => (⟨some u, fnet L u⟩ : LinkRec)) =
      fun u => some u := rfl
  rw [heq]
  simp

theorem filterMap_ite_nil {α : Type} (f : String → α) (u : String) :
    ∀ U : List String, u ∉ U →
    U.filterMap (fun v => if v = u then some (f v) else none) = [] := by
  intro U
  induction U with
  | nil => intro _; rfl
  | cons x U ih =>
    intro h
    simp only [List.mem_cons] at h
    push_neg at h
    have hxu : ¬ x = u := fun hh => h.1 hh.symm
    simp [List.filterMap_cons, hxu, ih h.2]

theorem filterMap_ite_single {α : Type} (f : String → α) (u : String) :
    ∀ U : List String, U.Nodup → u ∈ U →
    U.filterMap (fun v => if v = u then some (f v) else none) = [f u] := by
  intro U
  induction U with
  | nil => intro _ h; simp at h
  | cons x U ih =>
    intro hnd hmem
    rcases List.nodup_cons.mp hnd with ⟨hx, hU⟩
    rcases List.mem_cons.mp hmem with h | h
    · subst h
      simp [List.filterMap_cons, filterMap_ite_nil f u U hx]
    · have hxu : ¬ x = u := fun hh => hx (by rw [hh]; exact h)
      simp [List.filterMap_cons, hxu, ih hU h]

theorem fnet_dedupeList (L : List LinkRec) (u : String)
    (h : u ∈ firstOccs (urlsOf L)) : fnet (dedupeList L) u = fnet L u := by
  have htexts : textsOf (dedupeList L) u = [fnet L u] := by
    rw [dedupeList_char, textsOf, List.filterMap_map]
    have heq : ((fun l : LinkRec => if l.url = some u then some l.text else none)
          ∘ fun v => (⟨some v, fnet L v⟩ : LinkRec)) =
        fun v => if v = u then some (fnet L v) else none := by
      funext v
      by_cases hv : v = u <;> simp [hv]
    rw [heq]
    exact filterMap_ite_single _ u _ (nodup_firstOccs (urlsOf L)) h
  rw [fnet, htexts]
  by_cases hf : fnet L u = "" <;> simp [List.find?, hf]

/-- C1: `dedupe_links` keeps exactly one record per distinct url, at the
position of the url's first occurrence and in first-occurrence relative
order; records lacking a url are skipped; the stored text is the first
occurrence's text unless that was empty, in which case the first later
non-empty text replaces it in place; and the claim's three-record example
dedupes to the two expected records. -/
theorem dedupe_links_characterised :
    (dedupeList
        [⟨some "https://a", ""⟩, ⟨some "https://b", "B"⟩,
          ⟨some "https://a", "A"⟩] =
      [⟨some "https://a", "A"⟩, ⟨some "https://b", "B"⟩]) ∧
    (∀ L : List LinkRec,
      dedupeList L = (firstOccs (urlsOf L)).map (fun u => ⟨some u, fnet L u⟩)) :=
  ⟨by decide, dedupeList_char⟩

/-- C2: deduplication is idempotent: running `dedupe_links` on its own
output changes nothing. -/
theorem dedupe_links_idempotent :
    ∀ L : List LinkRec, dedupeList (dedupeList L) = dedupeList L := by
  intro L
  calc dedupeList (dedupeList L)
      = (firstOccs (urlsOf (dedupeList L))).map
          (fun u => ⟨some u, fnet (dedupeList L) u⟩) := dedupeList_char _
    _ = (firstOccs (urlsOf L)).map
          (fun u => ⟨some u, fnet (dedupeList L) u⟩) := by
        rw [urlsOf_dedupeList, firstOccs_of_nodup _ (nodup_firstOccs (urlsOf L))]
    _ = (firstOccs (urlsOf L)).map (fun u => ⟨some u, fnet L u⟩) :=
        List.map_congr_left (fun u hu => by rw [fnet_dedupeList L u hu])
    _ = dedupeList L := (dedupeList_char L).symm

/-! ### `dedupe_links` at dictionary level (frame behaviour) -/

/-- A JSON value as it occurs in the crawler's link dictionaries: a string
(e.g. the page `url`), the `links` array, or anything else (collapsed to
`null`, which the dedupe code never inspects). -/
inductive JVal where
  | s (v : String)
  | links (v : List LinkRec)
  | null
deriving DecidableEq

/-- `data.get("links", [])`: the stored links array, or `[]` when the key is
absent (a non-array value would make the Python loop fail; it is read as the
empty iteration here). -/
def getLinks (d : List (String × JVal)) : List LinkRec :=
  match lookupA d "links" with
  | some (JVal.links L) => L
  | _ => []

/-- `dedupe_links(data)`: the same dictionary with its `links` binding
replaced in place by the deduplicated list (Python mutates `data` and
returns it; the state transformer below is its effect on the dictionary). -/
def dedupe_links (d : List (String × JVal)) : List (String × JVal) :=
  setA d "links" (JVal.links (dedupeList (getLinks d)))

/-- C10: `dedupe_links` only rebinds the `links` key of the dictionary it
was handed: the `links` binding becomes the deduplicated list, every other
key keeps its binding, and the key order is untouched (with `links` appended
when it was absent) — the in-place mutation of the argument dictionary. -/
theorem dedupe_links_frame :
    ∀ d : List (String × JVal),
      lookupA (dedupe_links d) "links" =
          some (JVal.links (dedupeList (getLinks d))) ∧
      (∀ k, k ≠ "links" → lookupA (dedupe_links d) k = lookupA d k) ∧
      keysA (dedupe_links d) =
        (if "links" ∈ keysA d then keysA d else keysA d ++ ["links"]) := by
  intro d
  refine ⟨?_, ?_, ?_⟩
  · rw [dedupe_links, lookupA_setA]
    simp
  · intro k hk
    rw [dedupe_links, lookupA_setA, if_neg hk]
  · by_cases hmem : "links" ∈ keysA d
    · rw [dedupe_links, keysA_setA_mem _ _ _ hmem, if_pos hmem]
    · rw [dedupe_links, keysA_setA_new _ _ _ hmem, if_neg hmem]

/-! ### Folder-name resolution (src/crawler_html.py) -/

/-- Python whitespace for `str.split()` / `str.strip()` / regex `\s`
(ASCII): space, tab, newline, carriage return, vertical tab, form feed. -/
def pySpace (c : Char) : Bool :=
  c = ' ' || c = '\t' || c = '\n' || c = '\r' || c = '\x0b' || c = '\x0c'

/-- The delimiter class of `re.split(r'\s*[\|\-\:]\s*', title)`. -/
def isDelim (c : Char) : Bool :=
  c = '|' || c = '-' || c = ':'

/-- The slug character class `[a-zA-Z0-9_-]` of the sanitising `re.sub`. -/
def isSlugChar (c : Char) : Bool :=
  ('a' ≤ c && c ≤ 'z') || ('A' ≤ c && c ≤ 'Z') || ('0' ≤ c && c ≤ '9') ||
    c = '_' || c = '-'

/-- `re.split(r'\s*[\|\-\:]\s*', title)[0]` before stripping: the prefix of
the title up to (excluding) its first pipe/dash/colon; the `\s*` of the
pattern only widens the match into whitespace the subsequent `.strip()`
removes anyway. -/
def beforeDelim (l : List Char) : List Char :=
  l.takeWhile (fun c => !(isDelim c))

/-- Python `str.strip()`. -/
def stripPy (l : List Char) : List Char :=
  ((l.dropWhile pySpace).reverse.dropWhile pySpace).reverse

/-- Worker for `pyWords`: `acc` holds the characters of the word currently
being read, in reverse. -/
def pyWordsAux : List Char → List Char → List (List Char)
  | [], acc => if acc = [] then [] else [acc.reverse]
  | c :: rest, acc =>
    if pySpace c then
      if acc = [] then pyWordsAux rest []
      else acc.reverse :: pyWordsAux rest []
    else pyWordsAux rest (c :: acc)

/-- Python `str.split()` with no argument: maximal runs of non-whitespace. -/
def pyWords (l : List Char) : List (List Char) :=
  pyWordsAux l []

/-- `' '.join(words)`. -/
def joinSp : List (List Char) → List Char
  | [] => []
  | [w] => w
  | w :: rest => w ++ ' ' :: joinSp rest

/-- `.replace(' ', '_')`. -/
def replSp (c : Char) : Char :=
  if c = ' ' then '_' else c

/-- One character under `re.sub(r'[^a-zA-Z0-9_-]', '_', ·)`. -/
def subChar (c : Char) : Char :=
  if isSlugChar c then c else '_'

/-- The pipeline `sanitize_title_for_folder_name` applies to the first
delimiter segment of the title: strip, keep at most the first 5 words
(rejoined with single spaces only in that case), replace spaces by
underscores, replace every character outside the slug class by an
underscore, truncate to 100 characters, and report an empty result as
`none`. -/
def titleSlugCore (B : List Char) : Option String :=
  let t1 := stripPy B
  let ws := pyWords t1
  let t2 := if 5 < ws.length then joinSp (ws.take 5) else t1
  let slug := (t2.map replSp).map subChar
  let slug := slug.take 100
  if slug = [] then none else some (String.mk slug)

/-- `HtmlCrawler.sanitize_title_for_folder_name`: `none` models Python
`None` (fall back to URL-based naming); the guard is Python's
`if not title or title == "Title not found"`. -/
def sanitize_title_for_folder_name (title : String) : Option String :=
  if title = "" ∨ title = "Title not found" then none
  else titleSlugCore (beforeDelim title.data)

theorem takeWhile_idem (p : Char → Bool) (l : List Char) :
    (l.takeWhile p).takeWhile p = l.takeWhile p := by
  induction l with
  | nil => rfl
  | cons c rest ih =>
    by_cases hp : p c
    · simp [List.takeWhile_cons, hp, ih]
    · simp [List.takeWhile_cons, hp]

theorem mk_eq_empty_iff (l : List Char) : String.mk l = "" ↔ l = [] := by
  constructor
  · intro h
    have h2 : String.mk l = String.mk [] := h
    injection h2
  · intro h
    rw [h]

theorem isSlugChar_subChar (c : Char) : isSlugChar (subChar c) = true := by
  unfold subChar
  by_cases h : isSlugChar c
  · rw [if_pos h]
    exact h
  · rw [if_neg h]
    decide

theorem pyWordsAux_ne_nil :
    ∀ (l acc : List Char), ∀ w ∈ pyWordsAux l acc, w ≠ [] := by
  intro l
  induction l with
  | nil =>
    intro acc w hw
    unfold pyWordsAux at hw
    by_cases hacc : acc = []
    · simp [hacc] at hw
    · rw [if_neg hacc] at hw
      rcases List.mem_singleton.mp hw with rfl
      simp [hacc]
  | cons c rest ih =>
    intro acc w hw
    unfold pyWordsAux at hw
    by_cases hc : pySpace c
    · rw [if_pos hc] at hw
      by_cases hacc : acc = []
      · rw [if_pos hacc] at hw
        exact ih [] w hw
      · rw [if_neg hacc] at hw
        rcases List.mem_cons.mp hw with rfl | hw2
        · simp [hacc]
        · exact ih [] w hw2
    · rw [if_neg hc] at hw
      exact ih (c :: acc) w hw

theorem pyWords_ne_nil (l : List Char) : ∀ w ∈ pyWords l, w ≠ [] :=
  fun w hw => pyWordsAux_ne_nil l [] w hw

theorem joinSp_ne_nil :
    ∀ ws : List (List Char), ws ≠ [] → (∀ w ∈ ws, w ≠ []) → joinSp ws ≠ [] := by
  intro ws hne hws
  cases ws with
  | nil => exact absurd rfl hne
  | cons w rest =>
    cases rest with
    | nil => simpa [joinSp] using hws w (List.mem_cons_self w [])
    | cons w2 rr => simp [joinSp]

theorem titleSlugCore_props (B : List Char) (s : String)
    (h : titleSlugCore B = some s) :
    s ≠ "" ∧ s.length ≤ 100 ∧ ∀ c ∈ s.data, isSlugChar c := by
  simp only [titleSlugCore] at h
  generalize hX : ((if 5 < (pyWords (stripPy B)).length
      then joinSp ((pyWords (stripPy B)).take 5)
      else stripPy B).map replSp).map subChar = X at h
  split at h
  · exact Option.noConfusion h
  · rename_i hnil
    injection h with h2
    subst h2
    refine ⟨?_, ?_, ?_⟩
    · intro hc
      exact hnil ((mk_eq_empty_iff _).mp hc)
    · have hlen : (String.mk (X.take 100)).length = (X.take 100).length := rfl
      rw [hlen, List.length_take]
      exact Nat.min_le_left _ _
    · intro c hc
      have hc2 : c ∈ X := List.take_subset 100 X hc
      rw [← hX] at hc2
      rcases List.mem_map.mp hc2 with ⟨c2, _, rfl⟩
      exact isSlugChar_subChar c2

theorem sanitize_title_props (t s : String)
    (h : sanitize_title_for_folder_name t = some s) :
    s ≠ "" ∧ s.length ≤ 100 ∧ ∀ c ∈ s.data, isSlugChar c := by
  unfold sanitize_title_for_folder_name at h
  split at h
  · exact Option.noConfusion h
  · exact titleSlugCore_props _ s h

theorem sanitize_title_firstSegment (t : String)
    (h : String.mk (beforeDelim t.data) ≠ "Title not found") :
    sanitize_title_for_folder_name t =
      sanitize_title_for_folder_name (String.mk (beforeDelim t.data)) := by
  by_cases ht0 : t = ""
  · subst ht0
    decide
  · by_cases htn : t = "Title not found"
    · exact absurd (by rw [htn]; decide) h
    · have hguard : ¬(t = "" ∨ t = "Title not found") := by
        push_neg
        exact ⟨ht0, htn⟩
      by_cases hB : String.mk (beforeDelim t.data) = ""
      · have hBnil : beforeDelim t.data = [] := (mk_eq_empty_iff _).mp hB
        calc sanitize_title_for_folder_name t
            = titleSlugCore (beforeDelim t.data) := by
              unfold sanitize_title_for_folder_name
              rw [if_neg hguard]
          _ = none := by rw [hBnil]; decide
          _ = sanitize_title_for_folder_name (String.mk (beforeDelim t.data)) :=
              by rw [hBnil]; decide
      · have hguard2 : ¬(String.mk (beforeDelim t.data) = "" ∨
            String.mk (beforeDelim t.data) = "Title not found") := by
          push_neg
          exact ⟨hB, h⟩
        unfold sanitize_title_for_folder_name
        rw [if_neg hguard, if_neg hguard2]
        congr 1
        rw [show (String.mk (beforeDelim t.data)).data = beforeDelim t.data
          from rfl]
        unfold beforeDelim
        rw [takeWhile_idem]

theorem sanitize_title_fiveWords (t : String)
    (h5 : 5 < (pyWords (stripPy (beforeDelim t.data))).length) :
    sanitize_title_for_folder_name t =
      some (String.mk
        ((((joinSp ((pyWords (stripPy (beforeDelim t.data))).take 5)).map
          replSp).map subChar).take 100)) := by
  have ht0 : t ≠ "" := by
    intro hc
    subst hc
    exact absurd h5 (by decide)
  have htn : t ≠ "Title not found" := by
    intro hc
    subst hc
    exact absurd h5 (by decide)
  have hguard : ¬(t = "" ∨ t = "Title not found") := by
    push_neg
    exact ⟨ht0, htn⟩
  have hword : ∀ w ∈ (pyWords (stripPy (beforeDelim t.data))).take 5, w ≠ [] :=
    fun w hw => pyWords_ne_nil _ w (List.take_subset 5 _ hw)
  have htake : (pyWords (stripPy (beforeDelim t.data))).take 5 ≠ [] := by
    intro hc
    have hlen := congrArg List.length hc
    simp only [List.length_take, List.length_nil] at hlen
    omega
  have hjoin : joinSp ((pyWords (stripPy (beforeDelim t.data))).take 5) ≠ [] :=
    joinSp_ne_nil _ htake hword
  have hfin : ((((joinSp ((pyWords (stripPy (beforeDelim t.data))).take
      5)).map replSp).map subChar).take 100) ≠ [] := by
    intro hc
    have hlen := congrArg List.length hc
    simp only [List.length_take, List.length_map, List.length_nil] at hlen
    have h0 : (joinSp ((pyWords (stripPy (beforeDelim t.data))).take
        5)).length = 0 := by omega
    exact hjoin (List.length_eq_zero.mp h0)
  unfold sanitize_title_for_folder_name
  rw [if_neg hguard]
  simp only [titleSlugCore]
  rw [if_pos h5, if_neg hfin]

/-- C6: title-based folder naming: the claim's scenario resolves
`"Cuisines of India | Ministry of Culture"` to `"Cuisines_of_India"`; every
produced slug is non-empty, at most 100 characters, and drawn from
`[A-Za-z0-9_-]`; the result only depends on the segment before the first
pipe/dash/colon; when that segment has more than 5 words the slug is built
from exactly its first 5 words; and an empty or missing title (`""`,
`"Title not found"`) yields `none`, triggering URL-based fallback. -/
theorem title_folder_name_resolution :
    (sanitize_title_for_folder_name "Cuisines of India | Ministry of Culture" =
      some "Cuisines_of_India") ∧
    (∀ t s, sanitize_title_for_folder_name t = some s →
      s ≠ "" ∧ s.length ≤ 100 ∧ ∀ c ∈ s.data, isSlugChar c) ∧
    (∀ t, String.mk (beforeDelim t.data) ≠ "Title not found" →
      sanitize_title_for_folder_name t =
        sanitize_title_for_folder_name (String.mk (beforeDelim t.data))) ∧
    (∀ t, 5 < (pyWords (stripPy (beforeDelim t.data))).length →
      sanitize_title_for_folder_name t =
        some (String.mk
          ((((joinSp ((pyWords (stripPy (beforeDelim t.data))).take 5)).map
            replSp).map subChar).take 100))) ∧
    (sanitize_title_for_folder_name "" = none ∧
      sanitize_title_for_folder_name "Title not found" = none) :=
  ⟨by decide, sanitize_title_props, sanitize_title_firstSegment,
    sanitize_title_fiveWords, by decide, by decide⟩

/-! ### URL-based folder naming (src/crawler_html.py) -/

/-- `str.split(sep)` with a one-character separator, keeping empty pieces
(Python semantics: splitting the empty string gives `[""]`). -/
def splitChar : List Char → Char → List (List Char)
  | [], _ => [[]]
  | c :: rest, sep =>
    if c = sep then [] :: splitChar rest sep
    else
      match splitChar rest sep with
      | [] => [[c]]
      | w :: ws => (c :: w) :: ws

theorem splitChar_ne_nil : ∀ (l : List Char) (sep : Char),
    splitChar l sep ≠ [] := by
  intro l sep
  cases l with
  | nil => simp [splitChar]
  | cons c rest =>
    unfold splitChar
    by_cases hc : c = sep
    · simp [hc]
    · rw [if_neg hc]
      cases splitChar rest sep <;> simp

/-- Python `netloc.replace('www.', '')`: delete every (left-to-right,
non-overlapping) occurrence of `www.`. -/
def replaceWww : List Char → List Char
  | 'w' :: 'w' :: 'w' :: '.' :: rest => replaceWww rest
  | c :: rest => c :: replaceWww rest
  | [] => []

/-- Python `str.capitalize()`: first character upper-cased, the rest
lower-cased (ASCII behaviour). -/
def capitalizeW : List Char → List Char
  | [] => []
  | c :: rest => c.toUpper :: rest.map Char.toLower

/-- The `scheme`/`netloc`/`path` components of `urllib.parse.urlparse`. -/
structure PyUrl where
  scheme : String
  netloc : String
  path : String

/-- Scan for the first `://`, returning the text before and after it. -/
def splitSchemeMarker : List Char → Option (List Char × List Char)
  | ':' :: '/' :: '/' :: rest => some ([], rest)
  | c :: rest =>
    match splitSchemeMarker rest with
    | some (a, b) => some (c :: a, b)
    | none => none
  | [] => none

/-- `urllib.parse.urlparse`, simplified to absolute `scheme://netloc/path`
URLs as the crawler handles them: the scheme is what precedes the first
`://` (lower-cased), the netloc runs to the next `/`, `?` or `#`, the path
to the next `?` or `#`; query, fragment and params are discarded, and a URL
without `://` is all path. -/
def urlparse (url : String) : PyUrl :=
  match splitSchemeMarker url.data with
  | some (sch, rest) =>
    let netloc := rest.takeWhile (fun c => c ≠ '/' && c ≠ '?' && c ≠ '#')
    let rest2 := rest.dropWhile (fun c => c ≠ '/' && c ≠ '?' && c ≠ '#')
    let path := rest2.takeWhile (fun c => c ≠ '?' && c ≠ '#')
    ⟨String.mk (sch.map Char.toLower), String.mk netloc, String.mk path⟩
  | none => ⟨"", "", String.mk (url.data.takeWhile (fun c => c ≠ '?' && c ≠ '#'))⟩

/-- The domain branch of `sanitize_url_for_folder_name`: strip `www.`, take
the first dot-separated label, capitalise, sanitise, and append
`_<timestamp>`; `Web_Page_<timestamp>` is the dead final fallback (the
Python `if domain_parts:` can never be false, `str.split` being non-empty). -/
def domainFallback (netloc : String) (ts : Nat) : String :=
  let domain := replaceWww netloc.data
  match splitChar domain '.' with
  | [] => String.mk ("Web_Page_".data ++ (Nat.repr ts).data)
  | d0 :: _ =>
    let domainName := capitalizeW d0
    let slug := domainName.map subChar
    let slugT := slug ++ '_' :: (Nat.repr ts).data
    String.mk (if 100 < slugT.length then slugT.take 100 else slugT)

/-- `if path.endswith('/'): path = path[:-1]`. -/
def stripTrailingSlash (p : List Char) : List Char :=
  if p.getLast? = some '/' then p.dropLast else p

/-- `last_part = path_parts[-1] if path_parts[-1] else (path_parts[-2] if
len(path_parts) > 1 else "")`. -/
def lastPartOf (parts : List (List Char)) : List Char :=
  let lastA := parts.getLast?.getD []
  if lastA ≠ [] then lastA
  else if 1 < parts.length then parts.getD (parts.length - 2) [] else []

/-- The meaningful-last-segment branch of `sanitize_url_for_folder_name`:
hyphens/underscores to spaces, extension (first dot onward) dropped,
title-cased words rejoined, space-to-underscore, slug-class sanitisation,
100-character truncation. -/
def slugFromLastPart (lastPart : List Char) : String :=
  let textName := (lastPart.map (fun c => if c = '-' then ' ' else c)).map
    (fun c => if c = '_' then ' ' else c)
  let textName := if '.' ∈ textName
    then textName.takeWhile (fun c => c ≠ '.') else textName
  let textName := joinSp ((pyWords textName).map capitalizeW)
  let slug := (textName.map replSp).map subChar
  String.mk (if 100 < slug.length then slug.take 100 else slug)

/-- `HtmlCrawler.sanitize_url_for_folder_name` (src/crawler_html.py):
`ts` is `int(time.time())` at the moment the domain fallback fires. -/
def sanitize_url_for_folder_name (url : String) (ts : Nat) : String :=
  let p := urlparse url
  let path := stripTrailingSlash p.path.data
  if path ≠ [] then
    let lastPart := lastPartOf (splitChar path '/')
    if lastPart ≠ [] then slugFromLastPart lastPart
    else domainFallback p.netloc ts
  else domainFallback p.netloc ts

/-- The folder-name resolution of `crawl_url_recursive`: title-based naming
first, URL-based naming when the title yields nothing. -/
def resolveFolderName (title url : String) (ts : Nat) : String :=
  match sanitize_title_for_folder_name title with
  | some s => s
  | none => sanitize_url_for_folder_name url ts

theorem digitChar_slug (m : Nat) (h : m < 10) :
    isSlugChar (Nat.digitChar m) = true := by
  interval_cases m <;> decide

theorem toDigitsCore_slug (fuel : Nat) :
    ∀ (n : Nat) (acc : List Char), (∀ c ∈ acc, isSlugChar c = true) →
    ∀ c ∈ Nat.toDigitsCore 10 fuel n acc, isSlugChar c = true := by
  induction fuel with
  | zero =>
    intro n acc hacc c hc
    exact hacc c hc
  | succ fuel ih =>
    intro n acc hacc c hc
    rw [Nat.toDigitsCore] at hc
    have hd : ∀ c2 ∈ (Nat.digitChar (n % 10) :: acc), isSlugChar c2 = true := by
      intro c2 hc2
      rcases List.mem_cons.mp hc2 with rfl | hc2
      · exact digitChar_slug _ (Nat.mod_lt n (by norm_num))
      · exact hacc c2 hc2
    split at hc
    · exact hd c hc
    · exact ih (n / 10) (Nat.digitChar (n % 10) :: acc) hd c hc

theorem repr_digits_slug (n : Nat) :
    ∀ c ∈ (Nat.repr n).data, isSlugChar c = true := by
  intro c hc
  rw [show (Nat.repr n).data = Nat.toDigitsCore 10 (n + 1) n [] from rfl] at hc
  exact toDigitsCore_slug (n + 1) n [] (by intro c2 hc2; simp at hc2) c hc

theorem condTrunc_props (X : List Char) (hX : ∀ c ∈ X, isSlugChar c) :
    (String.mk (if 100 < X.length then X.take 100 else X)).length ≤ 100 ∧
    ∀ c ∈ (String.mk (if 100 < X.length then X.take 100 else X)).data,
      isSlugChar c := by
  by_cases h : 100 < X.length
  · rw [if_pos h]
    constructor
    · have hlen : (String.mk (X.take 100)).length = (X.take 100).length := rfl
      rw [hlen, List.length_take]
      exact Nat.min_le_left _ _
    · intro c hc
      exact hX c (List.take_subset _ _ hc)
  · rw [if_neg h]
    constructor
    · have hlen : (String.mk X).length = X.length := rfl
      rw [hlen]
      omega
    · exact hX

theorem domainFallback_props (netloc : String) (ts : Nat) :
    (domainFallback netloc ts).length ≤ 100 ∧
    ∀ c ∈ (domainFallback netloc ts).data, isSlugChar c := by
  unfold domainFallback
  rcases hsp : splitChar (replaceWww netloc.data) '.' with _ | ⟨d0, rest⟩
  · exact absurd hsp (splitChar_ne_nil _ _)
  · simp only [hsp]
    apply condTrunc_props
    intro c hc
    rcases List.mem_append.mp hc with hc | hc
    · rcases List.mem_map.mp hc with ⟨c2, _, rfl⟩
      exact isSlugChar_subChar c2
    · rcases List.mem_cons.mp hc with rfl | hc
      · decide
      · exact repr_digits_slug ts c hc

theorem sanitize_url_props (url : String) (ts : Nat) :
    (sanitize_url_for_folder_name url ts).length ≤ 100 ∧
    ∀ c ∈ (sanitize_url_for_folder_name url ts).data, isSlugChar c := by
  have hslug : ∀ lp : List Char, (slugFromLastPart lp).length ≤ 100 ∧
      ∀ c ∈ (slugFromLastPart lp).data, isSlugChar c := by
    intro lp
    simp only [slugFromLastPart]
    apply condTrunc_props
    intro c hc
    rcases List.mem_map.mp hc with ⟨c2, _, rfl⟩
    exact isSlugChar_subChar c2
  simp only [sanitize_url_for_folder_name]
  split
  · split
    · exact hslug _
    · exact domainFallback_props _ _
  · exact domainFallback_props _ _

/-- C7 counterexample: with an empty title and a URL whose last path
segment is a bare hyphen (here on host example.com), the resolved folder
name is the empty string: `resolveFolderName` is not always a non-empty
`[A-Za-z0-9_-]{1,100}` string. -/
theorem resolveFolderName_empty_counterexample :
    resolveFolderName "" "https://example.com/-" 0 = "" := by decide

/-- C7 amended: `resolveFolderName` always returns a string of at most 100
characters drawn from `[A-Za-z0-9_-]`; it can be empty (only when the title
yields no slug and the URL's last path segment sanitises to nothing, as in
the counterexample), so the guaranteed pattern is `[A-Za-z0-9_-]{0,100}`,
not `{1,100}`. -/
theorem resolveFolderName_amended :
    ∀ (title url : String) (ts : Nat),
      (resolveFolderName title url ts).length ≤ 100 ∧
      ∀ c ∈ (resolveFolderName title url ts).data, isSlugChar c := by
  intro title url ts
  unfold resolveFolderName
  cases htitle : sanitize_title_for_folder_name title with
  | some s =>
    rcases sanitize_title_props title s htitle with ⟨_, hlen, hch⟩
    exact ⟨hlen, hch⟩
  | none => exact sanitize_url_props url ts

/-! ### robots.txt policy cache (src/crawler_html.py) -/

/-- A parsed robots policy, as consulted through
`rp.can_fetch("*", url)`. -/
abbrev Policy := String → Bool

/-- `f"{parsed_url.scheme}://{parsed_url.netloc}"`, the cache key of
the robots-policy getter. -/
def originOf (url : String) : String :=
  (urlparse url).scheme ++ "://" ++ (urlparse url).netloc

/-- The parser built by `RobotFileParser(); parse(['User-agent: *',
'Allow: /'])`: it allows every URL. -/
def permissiveParser : Policy := fun _ => true

/-- The mutable robots state of one `HtmlCrawler`: the `robots_cache` dict
plus a trace of the origins whose robots.txt was actually fetched
(`rp.read()` calls). -/
structure RobotsState where
  cache : List (String × Policy)
  fetchedOrigins : List String

/-- `get_robots_policy` (HtmlCrawler's robots-policy getter): a cached policy is returned as is;
otherwise robots.txt is fetched for the origin (`net base = some rp` is a
successful `rp.read()`, `none` a raised network error) and the parsed — or,
on error, fully permissive — policy is cached. -/
def get_robots_policy (net : String → Option Policy) (st : RobotsState)
    (url : String) : Policy × RobotsState :=
  let base := originOf url
  match lookupA st.cache base with
  | some rp => (rp, st)
  | none =>
    match net base with
    | some rp => (rp, ⟨setA st.cache base rp, st.fetchedOrigins ++ [base]⟩)
    | none => (permissiveParser,
        ⟨setA st.cache base permissiveParser,
          st.fetchedOrigins ++ [base]⟩)

/-- `HtmlCrawler.can_fetch`: `True` without consulting anything when robots
enforcement is off, else the (possibly freshly cached) policy's verdict. -/
def can_fetch (respect : Bool) (net : String → Option Policy)
    (st : RobotsState) (url : String) : Bool × RobotsState :=
  if !respect then (true, st)
  else ((get_robots_policy net st url).1 url, (get_robots_policy net st url).2)

/-- A run of robots checks: `can_fetch` folded over the URLs a crawl
examines, threading the cache. -/
def can_fetch_run (respect : Bool) (net : String → Option Policy) :
    List String → RobotsState → RobotsState
  | [], st => st
  | u :: rest, st => can_fetch_run respect net rest (can_fetch respect net st u).2

theorem get_robots_policy_fail (net : String → Option Policy)
    (st : RobotsState) (url : String)
    (hmiss : lookupA st.cache (originOf url) = none)
    (herr : net (originOf url) = none) :
    get_robots_policy net st url =
      (permissiveParser,
        ⟨setA st.cache (originOf url) permissiveParser,
          st.fetchedOrigins ++ [originOf url]⟩) := by
  simp only [get_robots_policy]
  rw [hmiss, herr]

theorem can_fetch_cached_permissive (net : String → Option Policy)
    (st : RobotsState) (url : String)
    (hhit : lookupA st.cache (originOf url) = some permissiveParser) :
    can_fetch true net st url = (true, st) := by
  show ((get_robots_policy net st url).1 url,
    (get_robots_policy net st url).2) = (true, st)
  simp only [get_robots_policy]
  rw [hhit]
  exact rfl

theorem can_fetch_cache_persists (respect : Bool)
    (net : String → Option Policy) (st : RobotsState) (url : String)
    (k : String) (p : Policy) (h : lookupA st.cache k = some p) :
    lookupA ((can_fetch respect net st url).2).cache k = some p := by
  cases respect with
  | false => exact h
  | true =>
    show lookupA ((get_robots_policy net st url).2).cache k = some p
    simp only [get_robots_policy]
    cases hmiss : lookupA st.cache (originOf url) with
    | some rp => exact h
    | none =>
      have hk : ¬ k = originOf url := by
        intro hc
        rw [hc, hmiss] at h
        exact Option.noConfusion h
      cases hnet : net (originOf url) with
      | some rp =>
        show lookupA (setA st.cache (originOf url) rp) k = some p
        rw [lookupA_setA, if_neg hk]
        exact h
      | none =>
        show lookupA (setA st.cache (originOf url) permissiveParser) k = some p
        rw [lookupA_setA, if_neg hk]
        exact h

/-- The invariant of a robots run: the fetch trace is duplicate-free and
every fetched origin is already cached. -/
def RobotsInv (st : RobotsState) : Prop :=
  st.fetchedOrigins.Nodup ∧ ∀ o ∈ st.fetchedOrigins, o ∈ keysA st.cache

theorem can_fetch_inv (respect : Bool) (net : String → Option Policy)
    (st : RobotsState) (url : String) (hI : RobotsInv st) :
    RobotsInv (can_fetch respect net st url).2 := by
  cases respect with
  | false => exact hI
  | true =>
    show RobotsInv (get_robots_policy net st url).2
    simp only [get_robots_policy]
    cases hmiss : lookupA st.cache (originOf url) with
    | some rp => exact hI
    | none =>
      have hbase : originOf url ∉ keysA st.cache :=
        (lookupA_eq_none _ _).mp hmiss
      have hnotfetched : originOf url ∉ st.fetchedOrigins :=
        fun hc => hbase (hI.2 _ hc)
      have hstep : ∀ rp : Policy,
          RobotsInv ⟨setA st.cache (originOf url) rp,
            st.fetchedOrigins ++ [originOf url]⟩ := by
        intro rp
        constructor
        · rw [← List.concat_eq_append]
          exact List.Nodup.concat hnotfetched hI.1
        · intro o ho
          rw [keysA_setA_new _ _ _ hbase]
          rcases List.mem_append.mp ho with ho | ho
          · exact List.mem_append_left _ (hI.2 o ho)
          · exact List.mem_append_right _ ho
      cases hnet : net (originOf url) with
      | some rp => exact hstep rp
      | none => exact hstep permissiveParser

theorem can_fetch_run_inv (respect : Bool) (net : String → Option Policy) :
    ∀ (urls : List String) (st : RobotsState), RobotsInv st →
      RobotsInv (can_fetch_run respect net urls st) := by
  intro urls
  induction urls with
  | nil => intro st hI; exact hI
  | cons u rest ih =>
    intro st hI
    exact ih _ (can_fetch_inv respect net st u hI)

/-- C8: a robots.txt network error caches the fully permissive policy for
the origin, after which every robots check of any URL of that origin
returns `true` without touching the cache; cached policies are never
dropped or replaced for the rest of the run; and over any run of checks
each distinct origin's robots.txt is fetched at most once. -/
theorem robots_fail_open_cached_once :
    (∀ (net : String → Option Policy) (st : RobotsState) (url : String),
      lookupA st.cache (originOf url) = none → net (originOf url) = none →
      get_robots_policy net st url =
        (permissiveParser,
          ⟨setA st.cache (originOf url) permissiveParser,
            st.fetchedOrigins ++ [originOf url]⟩)) ∧
    (∀ (net : String → Option Policy) (st : RobotsState) (url : String),
      lookupA st.cache (originOf url) = some permissiveParser →
      can_fetch true net st url = (true, st)) ∧
    (∀ (respect : Bool) (net : String → Option Policy) (st : RobotsState)
      (url k : String) (p : Policy), lookupA st.cache k = some p →
      lookupA ((can_fetch respect net st url).2).cache k = some p) ∧
    (∀ (respect : Bool) (net : String → Option Policy) (urls : List String),
      (can_fetch_run respect net urls ⟨[], []⟩).fetchedOrigins.Nodup) :=
  ⟨get_robots_policy_fail, can_fetch_cached_permissive,
    can_fetch_cache_persists,
    fun respect net urls =>
      (can_fetch_run_inv respect net urls ⟨[], []⟩
        ⟨List.nodup_nil, fun o ho => absurd ho (List.not_mem_nil o)⟩).1⟩

/-! ### The recursion controller `crawl_url_recursive` (src/crawler_html.py) -/

/-- Outcome of the admission prologue of `crawl_url_recursive`
(lines: visited check, robots check, mark visited, depth check). -/
inductive AdmitResult where
  | rejectedVisited
  | rejectedRobots
  | rejectedDepth
  | admitted
deriving DecidableEq

/-- The admission prologue of `crawl_url_recursive`, in source order:
(1) a url already in `crawled_urls` is rejected silently; (2) a url the
robots policy disallows (when `respect_robots_txt` holds) is rejected
silently; only then is the url added to `crawled_urls`; (3) a url beyond
`max_depth` is rejected, but stays marked visited.  Returns the outcome and
the updated visited set. -/
def admission (crawled : List String) (respect : Bool)
    (allow : String → Bool) (url : String) (depth maxDepth : Nat) :
    AdmitResult × List String :=
  if url ∈ crawled then (AdmitResult.rejectedVisited, crawled)
  else if respect && !(allow url) then (AdmitResult.rejectedRobots, crawled)
  else if maxDepth < depth then (AdmitResult.rejectedDepth, url :: crawled)
  else (AdmitResult.admitted, url :: crawled)

/-- A fetched page, as the controller sees it: the title and the child urls
that survive `parse_links_file` on the page's deduplicated links. -/
structure HtmlPage where
  title : String
  links : List String
deriving DecidableEq

/-- Observable events of one crawl run: a dispatch of a url to the Fetcher
(`WebsiteCrawler.crawl`), or the creation of a child task by the
`self.crawl_url_recursive(next_url, current_depth + 1, ...)` call. -/
inductive CEvent where
  | fetch (url : String) (depth : Nat)
  | spawn (parent : String) (pdepth : Nat) (child : String) (cdepth : Nat)
deriving DecidableEq

/-- The crawler state: the `crawled_urls` visited set plus the event
trace. -/
structure CState where
  crawled : List String
  events : List CEvent
deriving DecidableEq

/-- The urls of the fetch events of a trace, in order. -/
def fetchedUrls (evs : List CEvent) : List String :=
  evs.filterMap (fun e => match e with
    | CEvent.fetch u _ => some u
    | _ => none)

/-- The `for i, next_url in enumerate(urls_to_crawl)` loop: each child is
spawned at the parent's depth plus one and crawled in discovery order. -/
def crawlChildren (crawlFn : String → Nat → CState → CState × Bool)
    (parent : String) (pdepth : Nat) : List String → CState → CState
  | [], st => st
  | next :: rest, st =>
    let st1 : CState := { st with
      events := st.events ++ [CEvent.spawn parent pdepth next (pdepth + 1)] }
    let st2 := (crawlFn next (pdepth + 1) st1).1
    crawlChildren crawlFn parent pdepth rest st2

/-- `HtmlCrawler.crawl_url_recursive`: admission prologue, fetch (`web url`
is the outcome of `WebsiteCrawler.crawl`; `none` is a raised fetch error,
returning `False` with no children), then recursive expansion of the page's
links at `depth + 1` while `depth < max_depth`.  The fuel argument bounds
the recursion tree height (any value at least `max_depth + 2` is exact);
exhausted fuel stops the run. -/
def crawl_url_recursive (web : String → Option HtmlPage) (respect : Bool)
    (allow : String → Bool) (maxDepth : Nat) :
    Nat → String → Nat → CState → CState × Bool
  | 0, _, _, st => (st, false)
  | fuel + 1, url, depth, st =>
    let adm := admission st.crawled respect allow url depth maxDepth
    if adm.1 = AdmitResult.admitted then
      let st2 : CState := ⟨adm.2, st.events ++ [CEvent.fetch url depth]⟩
      match web url with
      | none => (st2, false)
      | some page =>
        if depth < maxDepth then
          (crawlChildren (crawl_url_recursive web respect allow maxDepth fuel)
            url depth page.links st2, true)
        else (st2, true)
    else ({ st with crawled := adm.2 }, true)

/-- `HtmlCrawler.start_crawling`: the root task runs at depth 0 with an
empty visited set. -/
def start_crawling (web : String → Option HtmlPage) (respect : Bool)
    (allow : String → Bool) (maxDepth fuel : Nat) (url : String) :
    CState × Bool :=
  crawl_url_recursive web respect allow maxDepth fuel url 0 ⟨[], []⟩

/-- C4: the admission checks run in source order: visited-set membership
rejects first, silently (the state is untouched); robots disallowance (only
when enforcement is on) rejects second, silently; only then is the url
marked visited, after which depth > max_depth rejects while leaving the url
marked — so a url first seen beyond the depth limit is rejected as already
visited on any later discovery, at any depth. -/
theorem admission_check_order :
    (∀ (crawled : List String) (respect : Bool) (allow : String → Bool)
      (url : String) (depth maxDepth : Nat), url ∈ crawled →
      admission crawled respect allow url depth maxDepth =
        (AdmitResult.rejectedVisited, crawled)) ∧
    (∀ (crawled : List String) (respect : Bool) (allow : String → Bool)
      (url : String) (depth maxDepth : Nat), url ∉ crawled →
      respect = true → allow url = false →
      admission crawled respect allow url depth maxDepth =
        (AdmitResult.rejectedRobots, crawled)) ∧
    (∀ (crawled : List String) (respect : Bool) (allow : String → Bool)
      (url : String) (depth maxDepth : Nat), url ∉ crawled →
      (respect = false ∨ allow url = true) → maxDepth < depth →
      admission crawled respect allow url depth maxDepth =
        (AdmitResult.rejectedDepth, url :: crawled)) ∧
    (∀ (crawled : List String) (respect : Bool) (allow : String → Bool)
      (url : String) (depth maxDepth : Nat), url ∉ crawled →
      (respect = false ∨ allow url = true) → depth ≤ maxDepth →
      admission crawled respect allow url depth maxDepth =
        (AdmitResult.admitted, url :: crawled)) ∧
    (∀ (crawled : List String) (respect : Bool) (allow : String → Bool)
      (url : String) (depth2 maxDepth : Nat),
      admission (url :: crawled) respect allow url depth2 maxDepth =
        (AdmitResult.rejectedVisited, url :: crawled)) := by
  refine ⟨?_, ?_, ?_, ?_, ?_⟩
  · intro crawled respect allow url depth maxDepth h
    simp [admission, h]
  · intro crawled respect allow url depth maxDepth h1 h2 h3
    simp [admission, h1, h2, h3]
  · intro crawled respect allow url depth maxDepth h1 h2 h3
    rcases h2 with h2 | h2 <;> simp [admission, h1, h2, h3]
  · intro crawled respect allow url depth maxDepth h1 h2 h3
    have h4 : ¬ maxDepth < depth := Nat.not_lt.mpr h3
    rcases h2 with h2 | h2 <;> simp [admission, h1, h2, h4]
  · intro crawled respect allow url depth2 maxDepth
    simp [admission]

/-- The per-event trace invariant of one run: spawned children sit exactly
one level below their parent, and nothing is dispatched beyond
`max_depth`. -/
def goodEvent (maxDepth : Nat) : CEvent → Prop
  | CEvent.fetch _ d => d ≤ maxDepth
  | CEvent.spawn _ dp _ dc => dc = dp + 1

/-- The transition relation every crawl step satisfies: the visited set only
grows, the event trace only extends, every newly fetched url was unvisited
at entry and is visited on exit, no url is fetched twice in the new events,
and every new event is well-formed for `maxDepth`. -/
def CrawlTrans (maxDepth : Nat) (st st2 : CState) : Prop :=
  (∀ u ∈ st.crawled, u ∈ st2.crawled) ∧
  ∃ E, st2.events = st.events ++ E ∧
    (∀ u ∈ fetchedUrls E, u ∉ st.crawled ∧ u ∈ st2.crawled) ∧
    (fetchedUrls E).Nodup ∧
    (∀ e ∈ E, goodEvent maxDepth e)

theorem fetchedUrls_append (E1 E2 : List CEvent) :
    fetchedUrls (E1 ++ E2) = fetchedUrls E1 ++ fetchedUrls E2 :=
  List.filterMap_append E1 E2 _

theorem crawlTrans_refl (maxDepth : Nat) (st : CState) :
    CrawlTrans maxDepth st st := by
  refine ⟨fun u h => h, [], by simp, ?_, ?_, ?_⟩ <;> simp [fetchedUrls]

theorem crawlTrans_comp (maxDepth : Nat) (st st1 st2 : CState)
    (h1 : CrawlTrans maxDepth st st1) (h2 : CrawlTrans maxDepth st1 st2) :
    CrawlTrans maxDepth st st2 := by
  obtain ⟨m1, E1, he1, hf1, hn1, hg1⟩ := h1
  obtain ⟨m2, E2, he2, hf2, hn2, hg2⟩ := h2
  refine ⟨fun u hu => m2 u (m1 u hu), E1 ++ E2,
    by rw [he2, he1, List.append_assoc], ?_, ?_, ?_⟩
  · intro u hu
    rw [fetchedUrls_append] at hu
    rcases List.mem_append.mp hu with hu | hu
    · exact ⟨(hf1 u hu).1, m2 u (hf1 u hu).2⟩
    · exact ⟨fun hc => (hf2 u hu).1 (m1 u hc), (hf2 u hu).2⟩
  · rw [fetchedUrls_append]
    refine List.Nodup.append hn1 hn2 ?_
    intro u hu1 hu2
    exact (hf2 u hu2).1 (hf1 u hu1).2
  · intro e he
    rcases List.mem_append.mp he with he | he
    · exact hg1 e he
    · exact hg2 e he

theorem crawlTrans_mono (maxDepth : Nat) (st : CState) (c2 : List String)
    (hm : ∀ u ∈ st.crawled, u ∈ c2) :
    CrawlTrans maxDepth st ⟨c2, st.events⟩ := by
  refine ⟨hm, [], by simp, ?_, ?_, ?_⟩ <;> simp [fetchedUrls]

theorem crawlTrans_spawn (maxDepth : Nat) (st : CState) (p : String)
    (dp : Nat) (c : String) :
    CrawlTrans maxDepth st
      { st with events := st.events ++ [CEvent.spawn p dp c (dp + 1)] } := by
  refine ⟨fun u h => h, [CEvent.spawn p dp c (dp + 1)], rfl, ?_, ?_, ?_⟩ <;>
    simp [fetchedUrls, goodEvent]

theorem crawlTrans_fetch (maxDepth : Nat) (st : CState) (url : String)
    (depth : Nat) (hu : url ∉ st.crawled) (hd : depth ≤ maxDepth) :
    CrawlTrans maxDepth st
      ⟨url :: st.crawled, st.events ++ [CEvent.fetch url depth]⟩ := by
  refine ⟨fun u h => List.mem_cons_of_mem _ h, [CEvent.fetch url depth],
    rfl, ?_, ?_, ?_⟩ <;> simp [fetchedUrls, goodEvent, hu, hd]

theorem crawlChildren_trans (maxDepth : Nat)
    (crawlFn : String → Nat → CState → CState × Bool)
    (hfn : ∀ (u : String) (d : Nat) (st : CState),
      CrawlTrans maxDepth st (crawlFn u d st).1)
    (p : String) (dp : Nat) :
    ∀ (links : List String) (st : CState),
      CrawlTrans maxDepth st (crawlChildren crawlFn p dp links st) := by
  intro links
  induction links with
  | nil => intro st; exact crawlTrans_refl maxDepth st
  | cons next rest ih =>
    intro st
    show CrawlTrans maxDepth st (crawlChildren crawlFn p dp (next :: rest) st)
    rw [crawlChildren]
    exact crawlTrans_comp _ _ _ _
      (crawlTrans_comp _ _ _ _ (crawlTrans_spawn maxDepth st p dp next)
        (hfn next (dp + 1) _))
      (ih _)

theorem admission_admitted_inv (crawled : List String) (respect : Bool)
    (allow : String → Bool) (url : String) (depth maxDepth : Nat)
    (hadm : (admission crawled respect allow url depth maxDepth).1 =
      AdmitResult.admitted) :
    url ∉ crawled ∧
    (admission crawled respect allow url depth maxDepth).2 = url :: crawled ∧
    depth ≤ maxDepth := by
  unfold admission at hadm ⊢
  split_ifs at hadm ⊢ with h1 h2 h3
  all_goals simp at hadm
  all_goals exact ⟨h1, rfl, Nat.not_lt.mp h3⟩

theorem admission_crawled_mono (crawled : List String) (respect : Bool)
    (allow : String → Bool) (url : String) (depth maxDepth : Nat) :
    ∀ u ∈ crawled, u ∈ (admission crawled respect allow url depth maxDepth).2 := by
  intro u hu
  unfold admission
  split_ifs with h1 h2 h3
  · exact hu
  · exact hu
  · exact List.mem_cons_of_mem _ hu
  · exact List.mem_cons_of_mem _ hu

/-- Every step of the recursion controller satisfies the transition
invariant. -/
theorem crawl_url_recursive_trans (web : String → Option HtmlPage)
    (respect : Bool) (allow : String → Bool) (maxDepth : Nat) :
    ∀ (fuel : Nat) (url : String) (depth : Nat) (st : CState),
      CrawlTrans maxDepth st
        (crawl_url_recursive web respect allow maxDepth fuel url depth st).1 := by
  intro fuel
  induction fuel with
  | zero => intro url depth st; exact crawlTrans_refl maxDepth st
  | succ fuel ih =>
    intro url depth st
    simp only [crawl_url_recursive]
    by_cases hadm : (admission st.crawled respect allow url depth maxDepth).1 =
        AdmitResult.admitted
    · rw [if_pos hadm]
      obtain ⟨hu, hc2, hd⟩ :=
        admission_admitted_inv st.crawled respect allow url depth maxDepth hadm
      rw [hc2]
      have hstep : CrawlTrans maxDepth st
          ⟨url :: st.crawled, st.events ++ [CEvent.fetch url depth]⟩ :=
        crawlTrans_fetch maxDepth st url depth hu hd
      split
      · exact hstep
      · split
        · exact crawlTrans_comp _ _ _ _ hstep
            (crawlChildren_trans maxDepth _ (fun u d st0 => ih u d st0)
              url depth _ _)
        · exact hstep
    · rw [if_neg hadm]
      exact crawlTrans_mono maxDepth st _
        (admission_crawled_mono st.crawled respect allow url depth maxDepth)

/-- C3: in one run of the recursion controller (any fuel, any start depth,
any pre-seeded visited set `V`), the fetch trace never repeats a url, and a
url already in the visited set at the start of the run is never dispatched
to the Fetcher: every url is fetched at most once per run. -/
theorem crawl_fetches_at_most_once :
    ∀ (web : String → Option HtmlPage) (respect : Bool)
      (allow : String → Bool) (maxDepth fuel : Nat) (url : String)
      (depth : Nat) (V : List String),
      (fetchedUrls ((crawl_url_recursive web respect allow maxDepth fuel url
          depth ⟨V, []⟩).1).events).Nodup ∧
      ∀ u ∈ fetchedUrls ((crawl_url_recursive web respect allow maxDepth fuel
          url depth ⟨V, []⟩).1).events, u ∉ V := by
  intro web respect allow maxDepth fuel url depth V
  obtain ⟨m, E, hE, hf, hn, hg⟩ :=
    crawl_url_recursive_trans web respect allow maxDepth fuel url depth ⟨V, []⟩
  have hE2 : ((crawl_url_recursive web respect allow maxDepth fuel url depth
      ⟨V, []⟩).1).events = E := by
    rw [hE]
    rfl
  rw [hE2]
  exact ⟨hn, fun u hu => (hf u hu).1⟩

/-- C5: every spawn event created by an admitted task carries depth
parent + 1, no fetch event of a run has depth above `max_depth`, and
`start_crawling` runs the root task at depth 0 with a fresh visited set. -/
theorem crawl_depth_invariants :
    ∀ (web : String → Option HtmlPage) (respect : Bool)
      (allow : String → Bool) (maxDepth fuel : Nat) (url : String)
      (depth : Nat) (V : List String),
      (∀ p dp c dc, CEvent.spawn p dp c dc ∈
          ((crawl_url_recursive web respect allow maxDepth fuel url depth
            ⟨V, []⟩).1).events → dc = dp + 1) ∧
      (∀ u d2, CEvent.fetch u d2 ∈
          ((crawl_url_recursive web respect allow maxDepth fuel url depth
            ⟨V, []⟩).1).events → d2 ≤ maxDepth) ∧
      start_crawling web respect allow maxDepth fuel url =
        crawl_url_recursive web respect allow maxDepth fuel url 0 ⟨[], []⟩ := by
  intro web respect allow maxDepth fuel url depth V
  obtain ⟨m, E, hE, hf, hn, hg⟩ :=
    crawl_url_recursive_trans web respect allow maxDepth fuel url depth ⟨V, []⟩
  have hE2 : ((crawl_url_recursive web respect allow maxDepth fuel url depth
      ⟨V, []⟩).1).events = E := by
    rw [hE]
    rfl
  rw [hE2]
  refine ⟨?_, ?_, rfl⟩
  · intro p dp c dc hmem
    exact hg _ hmem
  · intro u d2 hmem
    exact hg _ hmem

/-! ### The queue-driven crawl loop (src/web_crawler.py) -/

/-- The mutable state of a `WebCrawler` run: `visited_urls`, `failed_urls`
(reduced to the urls), `page_count`, plus traces of the urls dispatched to
the browser and of the `(source, child)` pairs appended to the queue. -/
structure WState where
  visited : List String
  failed : List String
  pageCount : Nat
  fetchTrace : List String
  enqueued : List (String × String)
deriving DecidableEq

/-- `_is_limited(self.max_depth) and depth > self.max_depth`. -/
def depthExceeded (maxDepth : Option Nat) (depth : Nat) : Bool :=
  match maxDepth with
  | some md => decide (md < depth)
  | none => false

/-- `_is_limited(self.max_pages) and self.page_count >= self.max_pages`. -/
def pagesExhausted (maxPages : Option Nat) (count : Nat) : Bool :=
  match maxPages with
  | some mp => decide (mp ≤ count)
  | none => false

/-- `WebCrawler.process_page`: reject silently when the url is visited, the
depth or page budget is exhausted, or robots disallow; otherwise mark
visited, count the page, dispatch the fetch (`web url`; `some links` is a
successful fetch-and-extract, `none` a raised exception), and on failure
append the url to `failed_urls` and return no links. -/
def process_page (web : String → Option (List String))
    (allow : String → Bool) (maxDepth maxPages : Option Nat) (url : String)
    (depth : Nat) (st : WState) : WState × List String :=
  if url ∈ st.visited then (st, [])
  else if depthExceeded maxDepth depth then (st, [])
  else if pagesExhausted maxPages st.pageCount then (st, [])
  else if !(allow url) then (st, [])
  else
    let st1 : WState := { st with
      visited := url :: st.visited
      pageCount := st.pageCount + 1
      fetchTrace := st.fetchTrace ++ [url] }
    match web url with
    | some links => (st1, links)
    | none => ({ st1 with failed := st1.failed ++ [url] }, [])

/-- The `for link in self.process_page(url, depth): if link not in
self.visited_urls: queue.append((link, depth + 1))` loop, recording each
append as an `enqueued` pair. -/
def enqueueLinks (source : String) (depth : Nat) :
    List String → List (String × Nat) → WState → List (String × Nat) × WState
  | [], q, st => (q, st)
  | link :: rest, q, st =>
    if link ∈ st.visited then enqueueLinks source depth rest q st
    else enqueueLinks source depth rest (q ++ [(link, depth + 1)])
      { st with enqueued := st.enqueued ++ [(source, link)] }

/-- `WebCrawler.crawl`: pop the queue head, process it, enqueue its
unvisited links at depth + 1, and continue — while the queue is non-empty
and the page budget is not exhausted (fuel only makes the recursion
well-founded). -/
def crawl_loop (web : String → Option (List String)) (allow : String → Bool)
    (maxDepth maxPages : Option Nat) :
    Nat → List (String × Nat) → WState → WState
  | 0, _, st => st
  | _ + 1, [], st => st
  | fuel + 1, (url, depth) :: rest, st =>
    if pagesExhausted maxPages st.pageCount then st
    else
      let pr := process_page web allow maxDepth maxPages url depth st
      let qs := enqueueLinks url depth pr.2 rest pr.1
      crawl_loop web allow maxDepth maxPages fuel qs.1 qs.2

theorem process_page_enqueued (web : String → Option (List String))
    (allow : String → Bool) (maxDepth maxPages : Option Nat) (url : String)
    (depth : Nat) (st : WState) :
    ((process_page web allow maxDepth maxPages url depth st).1).enqueued =
      st.enqueued := by
  unfold process_page
  split_ifs <;> try rfl
  cases web url <;> rfl

theorem process_page_fail_links (web : String → Option (List String))
    (allow : String → Bool) (maxDepth maxPages : Option Nat) (url : String)
    (depth : Nat) (st : WState) (hweb : web url = none) :
    (process_page web allow maxDepth maxPages url depth st).2 = [] := by
  unfold process_page
  split_ifs <;> try rfl
  rw [hweb]

theorem enqueueLinks_no_new_source (source : String) (depth : Nat)
    (u : String) (hne : u ≠ source) :
    ∀ (links : List String) (q : List (String × Nat)) (st : WState),
      (∀ c, (u, c) ∉ st.enqueued) →
      ∀ c, (u, c) ∉ ((enqueueLinks source depth links q st).2).enqueued := by
  intro links
  induction links with
  | nil => intro q st h c; exact h c
  | cons link rest ih =>
    intro q st h c
    unfold enqueueLinks
    split
    · exact ih q st h c
    · refine ih _ _ ?_ c
      intro c2 hc2
      rcases List.mem_append.mp hc2 with hc2 | hc2
      · exact h c2 hc2
      · rcases List.mem_singleton.mp hc2 with hp
        exact hne (congrArg Prod.fst hp)

theorem crawl_loop_no_enqueue_of_fail (web : String → Option (List String))
    (allow : String → Bool) (maxDepth maxPages : Option Nat) (u : String)
    (hweb : web u = none) :
    ∀ (fuel : Nat) (queue : List (String × Nat)) (st : WState),
      (∀ c, (u, c) ∉ st.enqueued) →
      ∀ c, (u, c) ∉ (crawl_loop web allow maxDepth maxPages fuel queue
        st).enqueued := by
  intro fuel
  induction fuel with
  | zero => intro queue st h c; exact h c
  | succ fuel ih =>
    intro queue st h c
    cases queue with
    | nil => exact h c
    | cons task rest =>
      obtain ⟨url, depth⟩ := task
      show (u, c) ∉ (crawl_loop web allow maxDepth maxPages (fuel + 1)
        ((url, depth) :: rest) st).enqueued
      simp only [crawl_loop]
      split
      · exact h c
      · by_cases hu : url = u
        · subst hu
          rw [process_page_fail_links web allow maxDepth maxPages url depth
            st hweb]
          refine ih rest _ ?_ c
          intro c2 hc2
          simp only [enqueueLinks] at hc2
          rw [process_page_enqueued] at hc2
          exact h c2 hc2
        · refine ih _ _ ?_ c
          refine enqueueLinks_no_new_source url depth u
            (fun hc => hu hc.symm) _ rest _ ?_
          intro c2 hc2
          rw [process_page_enqueued] at hc2
          exact h c2 hc2

/-- C9: a url whose fetch raises (`web url = none`) is recorded: the crawl
step marks it visited, counts it, traces the dispatch, and appends it to
`failed_urls`; it contributes no children (the queue passed on is exactly
the remaining frontier, which the loop keeps processing); and globally no
`(failed-url, child)` pair is ever enqueued. -/
theorem fetch_failure_handling :
    (∀ (web : String → Option (List String)) (allow : String → Bool)
      (maxDepth maxPages : Option Nat) (fuel : Nat) (url : String)
      (depth : Nat) (rest : List (String × Nat)) (st : WState),
      url ∉ st.visited → depthExceeded maxDepth depth = false →
      pagesExhausted maxPages st.pageCount = false → allow url = true →
      web url = none →
      crawl_loop web allow maxDepth maxPages (fuel + 1)
          ((url, depth) :: rest) st =
        crawl_loop web allow maxDepth maxPages fuel rest
          { st with
            visited := url :: st.visited
            failed := st.failed ++ [url]
            pageCount := st.pageCount + 1
            fetchTrace := st.fetchTrace ++ [url] }) ∧
    (∀ (web : String → Option (List String)) (allow : String → Bool)
      (maxDepth maxPages : Option Nat) (u : String), web u = none →
      ∀ (fuel : Nat) (queue : List (String × Nat)) (st : WState),
      (∀ c, (u, c) ∉ st.enqueued) →
      ∀ c, (u, c) ∉ (crawl_loop web allow maxDepth maxPages fuel queue
        st).enqueued) := by
  constructor
  · intro web allow maxDepth maxPages fuel url depth rest st
      hvis hdep hpag hallow hweb
    simp only [crawl_loop]
    rw [if_neg (by rw [hpag]; exact Bool.false_ne_true)]
    have hpp : process_page web allow maxDepth maxPages url depth st =
        ({ st with
            visited := url :: st.visited
            failed := st.failed ++ [url]
            pageCount := st.pageCount + 1
            fetchTrace := st.fetchTrace ++ [url] }, []) := by
      unfold process_page
      rw [if_neg hvis, if_neg (by rw [hdep]; exact Bool.false_ne_true),
        if_neg (by rw [hpag]; exact Bool.false_ne_true),
        if_neg (by rw [hallow]; exact Bool.not_true ▸ Bool.false_ne_true),
        hweb]
    rw [hpp]
    rfl
  · exact crawl_loop_no_enqueue_of_fail

/-! ### Concrete instances of the claims' conditional parts -/

theorem crawl_fetches_at_most_once_witness :
    "https://a" ∉ ([] : List String) :=
  (crawl_fetches_at_most_once (fun _ => some ⟨"T", ["https://b"]⟩) true
    (fun _ => true) 1 3 "https://a" 0 []).2 "https://a" (by decide)

theorem admission_check_order_witness :
    admission [] true (fun _ => true) "https://a" 3 2 =
      (AdmitResult.rejectedDepth, ["https://a"]) ∧
    admission ["https://a"] true (fun _ => true) "https://a" 0 2 =
      (AdmitResult.rejectedVisited, ["https://a"]) :=
  ⟨admission_check_order.2.2.1 [] true (fun _ => true) "https://a" 3 2
      (by decide) (Or.inr rfl) (by decide),
    admission_check_order.2.2.2.2 [] true (fun _ => true)
      "https://a" 0 2⟩

theorem crawl_depth_invariants_witness :
    CEvent.spawn "https://a" 0 "https://b" 1 ∈
      ((crawl_url_recursive (fun _ => some ⟨"T", ["https://b"]⟩) true
        (fun _ => true) 1 3 "https://a" 0 ⟨[], []⟩).1).events ∧ 1 = 0 + 1 :=
  ⟨by decide,
    (crawl_depth_invariants (fun _ => some ⟨"T", ["https://b"]⟩) true
      (fun _ => true) 1 3 "https://a" 0 []).1 "https://a" 0 "https://b" 1
      (by decide)⟩

theorem title_folder_name_resolution_witness :
    sanitize_title_for_folder_name "one two three four five six | site" =
      some (String.mk
        ((((joinSp ((pyWords (stripPy (beforeDelim
          ("one two three four five six | site").data))).take 5)).map
            replSp).map subChar).take 100)) :=
  title_folder_name_resolution.2.2.2.1 "one two three four five six | site"
    (by decide)

theorem resolveFolderName_amended_witness :
    (resolveFolderName "My Page" "https://example.com/a" 5).length ≤ 100 :=
  (resolveFolderName_amended "My Page" "https://example.com/a" 5).1

theorem robots_fail_open_cached_once_witness :
    get_robots_policy (fun _ => none) ⟨[], []⟩ "https://example.com/x" =
      (permissiveParser,
        ⟨[(originOf "https://example.com/x", permissiveParser)],
          [originOf "https://example.com/x"]⟩) ∧
    can_fetch true (fun _ => none)
        ⟨[(originOf "https://example.com/x", permissiveParser)],
          [originOf "https://example.com/x"]⟩ "https://example.com/x" =
      (true,
        ⟨[(originOf "https://example.com/x", permissiveParser)],
          [originOf "https://example.com/x"]⟩) :=
  ⟨robots_fail_open_cached_once.1 (fun _ => none) ⟨[], []⟩
      "https://example.com/x" rfl rfl,
    robots_fail_open_cached_once.2.1 (fun _ => none)
      ⟨[(originOf "https://example.com/x", permissiveParser)],
        [originOf "https://example.com/x"]⟩ "https://example.com/x" rfl⟩

theorem fetch_failure_handling_witness :
    crawl_loop (fun _ => none) (fun _ => true) none none (1 + 1)
        [("https://a", 0), ("https://b", 0)] ⟨[], [], 0, [], []⟩ =
      crawl_loop (fun _ => none) (fun _ => true) none none 1
        [("https://b", 0)] ⟨["https://a"], ["https://a"], 1, ["https://a"], []⟩ :=
  fetch_failure_handling.1 (fun _ => none) (fun _ => true) none none 1
    "https://a" 0 [("https://b", 0)] ⟨[], [], 0, [], []⟩
    (by decide) rfl rfl rfl rfl

theorem dedupe_links_frame_witness :
    lookupA (dedupe_links [("url", JVal.s "https://a")]) "url" =
      lookupA [("url", JVal.s "https://a")] "url" :=
  (dedupe_links_frame [("url", JVal.s "https://a")]).2.1 "url" (by decide)
